import Mathlib

/-!
Verification of the selective-projection engine (`filterByRules` and `trim`)
of the yamltrimmer repository, shallowly embedded from `cmd/yamltrimmer.go`.

The embedding models the `yaml.Node` tree of `gopkg.in/yaml.v3` as an
inductive type carrying kind, style, tag, value, ordered content, and
source position; rule forests (`IncludeConfigItem`) as an inductive forest;
the fatal exits (`logrus.Fatalf`) and the Go slice index-out-of-range panic
as `Except` errors, so that "the whole call aborts with no partial result"
is the error case of the embedding.
-/

set_option maxHeartbeats 1000000

/-- Node kinds of `yaml.Node` (`yaml.Kind`); `zero` is the zero value of the
Go type, carried by a freshly declared `var x yaml.Node`. -/
inductive Kind where
  | zero
  | document
  | sequence
  | mapping
  | scalar
  | aliasK
deriving DecidableEq, Repr

/-- The failure modes of the embedded engine.  `fatalNotAMapping` models the
process abort `logrus.Fatalf("Input node is not a mapping node")` in
`filterByRules` (a constant message: no field of it records the offending
node); `indexOutOfRange` models the Go runtime panic of the access
`inputNode.Content[i+1]` on an odd-length content slice; `emptyDocument`
models the returned error `"no content in the input YAML"` in `trim`;
`multiDocument` models `logrus.Fatalf("Multiple documents in the input
YAML. ...")` in `trim`. -/
inductive Err where
  | fatalNotAMapping
  | indexOutOfRange
  | emptyDocument
  | multiDocument
deriving DecidableEq, Repr

/-- Embedding of `yaml.Node`: kind, style (an opaque integer bitmask in
yaml.v3), tag, value, ordered content (for a mapping node: alternating
key/value children), and line/column position. -/
inductive YamlNode where
  | mk (kind : Kind) (style : Nat) (tag : String) (value : String)
       (content : List YamlNode) (line : Nat) (column : Nat)
deriving Repr

/-- The `Kind` field of a node. -/
def YamlNode.kind : YamlNode → Kind
  | .mk k _ _ _ _ _ _ => k

/-- The `Style` field of a node. -/
def YamlNode.style : YamlNode → Nat
  | .mk _ s _ _ _ _ _ => s

/-- The `Tag` field of a node. -/
def YamlNode.tag : YamlNode → String
  | .mk _ _ t _ _ _ _ => t

/-- The `Value` field of a node. -/
def YamlNode.value : YamlNode → String
  | .mk _ _ _ v _ _ _ => v

/-- The `Content` field of a node. -/
def YamlNode.content : YamlNode → List YamlNode
  | .mk _ _ _ _ c _ _ => c

/-- The `Line` field of a node. -/
def YamlNode.line : YamlNode → Nat
  | .mk _ _ _ _ _ l _ => l

/-- The `Column` field of a node. -/
def YamlNode.column : YamlNode → Nat
  | .mk _ _ _ _ _ _ c => c

mutual
/-- Decidable structural equality of nodes. -/
def YamlNode.beq : YamlNode → YamlNode → Bool
  | .mk k1 s1 t1 v1 c1 l1 col1, .mk k2 s2 t2 v2 c2 l2 col2 =>
    k1 = k2 && s1 = s2 && t1 = t2 && v1 = v2 && YamlNode.beqList c1 c2
      && l1 = l2 && col1 = col2

/-- Decidable structural equality of node lists. -/
def YamlNode.beqList : List YamlNode → List YamlNode → Bool
  | [], [] => true
  | n :: ns, m :: ms => YamlNode.beq n m && YamlNode.beqList ns ms
  | _, _ => false
end

mutual
theorem yamlBeq_iff : ∀ n m : YamlNode, YamlNode.beq n m = true ↔ n = m
  | .mk k1 s1 t1 v1 c1 l1 col1, .mk k2 s2 t2 v2 c2 l2 col2 => by
    simp only [YamlNode.beq, Bool.and_eq_true, decide_eq_true_eq, YamlNode.mk.injEq]
    rw [yamlBeqList_iff c1 c2]
    tauto

theorem yamlBeqList_iff : ∀ ns ms : List YamlNode, YamlNode.beqList ns ms = true ↔ ns = ms
  | [], [] => by simp [YamlNode.beqList]
  | [], _ :: _ => by simp [YamlNode.beqList]
  | _ :: _, [] => by simp [YamlNode.beqList]
  | n :: ns, m :: ms => by
    simp only [YamlNode.beqList, Bool.and_eq_true, List.cons.injEq]
    rw [yamlBeq_iff n m, yamlBeqList_iff ns ms]
end

instance : DecidableEq YamlNode := fun n m =>
  decidable_of_iff (YamlNode.beq n m = true) (yamlBeq_iff n m)

/-- Embedding of the rule type `IncludeConfigItem`: a key and a forest of
nested rules (the Go field `Include`; named `incl` here). -/
inductive IncludeConfigItem where
  | mk (key : String) (incl : List IncludeConfigItem)
deriving Repr

/-- The `Key` field of a rule. -/
def IncludeConfigItem.key : IncludeConfigItem → String
  | .mk k _ => k

/-- The `Include` field of a rule. -/
def IncludeConfigItem.incl : IncludeConfigItem → List IncludeConfigItem
  | .mk _ i => i

mutual
/-- Decidable structural equality of rules. -/
def IncludeConfigItem.beq : IncludeConfigItem → IncludeConfigItem → Bool
  | .mk k1 i1, .mk k2 i2 => k1 = k2 && IncludeConfigItem.beqList i1 i2

/-- Decidable structural equality of rule forests. -/
def IncludeConfigItem.beqList : List IncludeConfigItem → List IncludeConfigItem → Bool
  | [], [] => true
  | r :: rs, q :: qs => IncludeConfigItem.beq r q && IncludeConfigItem.beqList rs qs
  | _, _ => false
end

mutual
theorem ruleBeq_iff :
    ∀ r q : IncludeConfigItem, IncludeConfigItem.beq r q = true ↔ r = q
  | .mk k1 i1, .mk k2 i2 => by
    simp only [IncludeConfigItem.beq, Bool.and_eq_true, decide_eq_true_eq,
      IncludeConfigItem.mk.injEq]
    rw [ruleBeqList_iff i1 i2]

theorem ruleBeqList_iff :
    ∀ rs qs : List IncludeConfigItem, IncludeConfigItem.beqList rs qs = true ↔ rs = qs
  | [], [] => by simp [IncludeConfigItem.beqList]
  | [], _ :: _ => by simp [IncludeConfigItem.beqList]
  | _ :: _, [] => by simp [IncludeConfigItem.beqList]
  | r :: rs, q :: qs => by
    simp only [IncludeConfigItem.beqList, Bool.and_eq_true, List.cons.injEq]
    rw [ruleBeq_iff r q, ruleBeqList_iff rs qs]
end

instance : DecidableEq IncludeConfigItem := fun r q =>
  decidable_of_iff (IncludeConfigItem.beq r q = true) (ruleBeq_iff r q)

instance {ε α : Type} [DecidableEq ε] [DecidableEq α] : DecidableEq (Except ε α) :=
  fun x y =>
    match x, y with
    | .ok a, .ok b =>
      if h : a = b then .isTrue (by rw [h]) else .isFalse (fun hc => h (Except.ok.inj hc))
    | .error a, .error b =>
      if h : a = b then .isTrue (by rw [h]) else .isFalse (fun hc => h (Except.error.inj hc))
    | .ok _, .error _ => .isFalse (fun hc => Except.noConfusion hc)
    | .error _, .ok _ => .isFalse (fun hc => Except.noConfusion hc)

/-- The inner loop of `filterByRules`: `for i := 0; i < len(content); i += 2`
reads `content[i]` and `content[i+1]` and returns the first pair whose key
text equals `key`.  On an odd-length list the Go code reads `content[i+1]`
out of bounds at the final index (a runtime panic), modelled by
`Err.indexOutOfRange`. -/
def scanPairs (key : String) : List YamlNode → Except Err (Option (YamlNode × YamlNode))
  | [] => .ok none
  | [_] => .error .indexOutOfRange
  | kn :: vn :: rest =>
    if kn.value = key then .ok (some (kn, vn)) else scanPairs key rest

/-- The keys of a mapping node's content list: the values of the nodes in
even positions (the key positions of the alternating key/value layout). -/
def mapKeys : List YamlNode → List String
  | kn :: _ :: rest => kn.value :: mapKeys rest
  | _ => []

mutual
/-- The rule loop of `filterByRules`: for each rule in order, scan the input
content for the first matching pair; on no match skip the rule; on a match
emit the key node and either the verbatim value node (leaf rule) or the
recursively filtered value (rule with nested `Include`).  Returns the
output content list. -/
def applyRules : List IncludeConfigItem → YamlNode → Except Err (List YamlNode)
  | [], _ => .ok []
  | IncludeConfigItem.mk key incl :: rest, input =>
    match scanPairs key input.content with
    | .error e => .error e
    | .ok none => applyRules rest input
    | .ok (some (kn, vn)) =>
      if incl.length > 0 then
        match filterByRules incl vn with
        | .error e => .error e
        | .ok nested =>
          match applyRules rest input with
          | .error e => .error e
          | .ok tail => .ok (kn :: nested :: tail)
      else
        match applyRules rest input with
        | .error e => .error e
        | .ok tail => .ok (kn :: vn :: tail)
termination_by rules _ => (sizeOf rules, 0)

/-- Embedding of `filterByRules(rules, inputNode, outputNode)`: aborts when
the input node is not a mapping; otherwise the caller's fresh zero output
node gets kind `mapping`, the input's style, and the content produced by
the rule loop (its tag, value and position stay at their zero values). -/
def filterByRules (rules : List IncludeConfigItem) (input : YamlNode) :
    Except Err YamlNode :=
  if input.kind = Kind.mapping then
    match applyRules rules input with
    | .error e => .error e
    | .ok cs => .ok (YamlNode.mk Kind.mapping input.style "" "" cs 0 0)
  else .error .fatalNotAMapping
termination_by (sizeOf rules, 1)
end

/-- Embedding of `trim` after parsing: the parsed document root fails with
`emptyDocument` when it has no content, with `multiDocument` when it has
more than one child, and otherwise `filterByRules` runs on the single
top-level node.  (Byte-level parsing and serialization are outside the
embedding; `trim` is modelled from the parsed root node on.) -/
def trim (root : YamlNode) (rules : List IncludeConfigItem) : Except Err YamlNode :=
  match root.content with
  | [] => .error .emptyDocument
  | [n] => filterByRules rules n
  | _ :: _ :: _ => .error .multiDocument

mutual
/-- Well-formedness of a parsed node: every mapping node in the tree has an
even-length content list (every parsed YAML mapping satisfies this). -/
def wfNode : YamlNode → Bool
  | .mk k _ _ _ c _ _ =>
    (decide (k ≠ Kind.mapping) || decide (c.length % 2 = 0)) && wfList c

/-- Well-formedness of a list of nodes. -/
def wfList : List YamlNode → Bool
  | [] => true
  | n :: rest => wfNode n && wfList rest
end

/-- Pairwise-distinct sibling keys, at every level of a rule forest. -/
def distinctKeys : List IncludeConfigItem → Bool
  | [] => true
  | IncludeConfigItem.mk key incl :: rest =>
    decide (key ∉ rest.map IncludeConfigItem.key) && distinctKeys incl && distinctKeys rest

example : scanPairs "b"
    [YamlNode.mk Kind.scalar 0 "" "a" [] 0 0, YamlNode.mk Kind.scalar 0 "" "1" [] 0 0,
     YamlNode.mk Kind.scalar 0 "" "b" [] 0 0, YamlNode.mk Kind.scalar 0 "" "2" [] 0 0] =
    .ok (some (YamlNode.mk Kind.scalar 0 "" "b" [] 0 0,
               YamlNode.mk Kind.scalar 0 "" "2" [] 0 0)) := by decide

/-!
## Store-based model

`filterByRules` in Go receives `*yaml.Node` pointers and builds the output by
writing through `outputNode` only.  To state the frame property (the input
tree is never mutated) the same function is also embedded over an explicit
store: nodes live at numeric ids, a node's content is a list of ids, and the
Go pointer writes become store updates.  `var nestedOutputNode yaml.Node`
becomes allocation of a fresh zero node at the end of the store.
-/

/-- The data held at one store id: the fields of one `yaml.Node`, with child
pointers as store ids. -/
structure NodeData where
  kind : Kind
  style : Nat
  tag : String
  value : String
  content : List Nat
  line : Nat
  column : Nat
deriving DecidableEq, Repr

/-- A store of nodes; the id of a node is its index. -/
abbrev Store := List NodeData

/-- The zero value of `yaml.Node`. -/
def zeroNodeData : NodeData := ⟨Kind.zero, 0, "", "", [], 0, 0⟩

/-- Dereference an id (ids handed to the engine are always valid). -/
def getN (s : Store) (i : Nat) : NodeData := s.getD i zeroNodeData

/-- `outputNode.Content = append(outputNode.Content, x)`. -/
def appendContent (d : NodeData) (i : Nat) : NodeData :=
  { d with content := d.content ++ [i] }

/-- The inner loop's scan, store version: walk the content ids two at a time
and return the first pair whose key node's value equals `key`; an odd tail
is the out-of-range read of `content[i+1]`.  (The loop performs no store
writes before its first match, so reading the content snapshot is exact.) -/
def findIds (key : String) (s : Store) : List Nat → Except Err (Option (Nat × Nat))
  | [] => .ok none
  | [_] => .error .indexOutOfRange
  | kId :: vId :: rest =>
    if (getN s kId).value = key then .ok (some (kId, vId)) else findIds key s rest

mutual
/-- The rule loop of the store-version `filterByRules`: writes go only to
`outId` (appending matched ids) and to freshly allocated nested output
nodes. -/
def rulesS : List IncludeConfigItem → Nat → Nat → Store → Except Err Store
  | [], _, _, s => .ok s
  | IncludeConfigItem.mk key incl :: rest, inId, outId, s =>
    match findIds key s (getN s inId).content with
    | .error e => .error e
    | .ok none => rulesS rest inId outId s
    | .ok (some (kId, vId)) =>
      let s1 := s.set outId (appendContent (getN s outId) kId)
      if incl.length > 0 then
        let nid := s1.length
        let s2 := s1 ++ [zeroNodeData]
        match filterByRulesS incl vId nid s2 with
        | .error e => .error e
        | .ok s3 => rulesS rest inId outId (s3.set outId (appendContent (getN s3 outId) nid))
      else
        rulesS rest inId outId (s1.set outId (appendContent (getN s1 outId) vId))
termination_by rules _ _ _ => (sizeOf rules, 0)

/-- Store version of `filterByRules(rules, inputNode, outputNode)`: abort
unless the input node is a mapping; set the output node's kind and style;
run the rule loop. -/
def filterByRulesS (rules : List IncludeConfigItem) (inId outId : Nat) (s : Store) :
    Except Err Store :=
  if (getN s inId).kind = Kind.mapping then
    rulesS rules inId outId
      (s.set outId { getN s outId with kind := Kind.mapping, style := (getN s inId).style })
  else .error .fatalNotAMapping
termination_by (sizeOf rules, 1)
end

/-! ## Lemmas about the pair scan -/

theorem mapKeys_cons (kn vn : YamlNode) (rest : List YamlNode) :
    mapKeys (kn :: vn :: rest) = kn.value :: mapKeys rest := rfl

theorem scanPairs_found {key : String} {kn vn : YamlNode} {rest : List YamlNode}
    (h : kn.value = key) : scanPairs key (kn :: vn :: rest) = .ok (some (kn, vn)) := by
  simp [scanPairs, h]

theorem scanPairs_skip {key : String} {kn vn : YamlNode} {rest : List YamlNode}
    (h : kn.value ≠ key) : scanPairs key (kn :: vn :: rest) = scanPairs key rest := by
  simp [scanPairs, h]

theorem scanPairs_none_not_mem {key : String} :
    ∀ {c : List YamlNode}, scanPairs key c = .ok none → key ∉ mapKeys c
  | [], _ => by simp [mapKeys]
  | [_], h => by simp [scanPairs] at h
  | kn :: vn :: rest, h => by
    by_cases hk : kn.value = key
    · rw [scanPairs_found hk] at h
      exact absurd h (by simp)
    · rw [scanPairs_skip hk] at h
      have ih := scanPairs_none_not_mem h
      simp only [mapKeys_cons, List.mem_cons, not_or]
      exact ⟨fun he => hk he.symm, ih⟩

theorem scanPairs_some_facts {key : String} :
    ∀ {c : List YamlNode} {kn vn : YamlNode},
      scanPairs key c = .ok (some (kn, vn)) →
      kn.value = key ∧ key ∈ mapKeys c ∧ kn ∈ c ∧ vn ∈ c
  | [], _, _, h => by simp [scanPairs] at h
  | [_], _, _, h => by simp [scanPairs] at h
  | kn' :: vn' :: rest, kn, vn, h => by
    by_cases hk : kn'.value = key
    · rw [scanPairs_found hk] at h
      obtain ⟨h1, h2⟩ : kn' = kn ∧ vn' = vn := by
        simpa using h
      subst h1; subst h2
      exact ⟨hk, by simp [mapKeys_cons, hk], by simp, by simp⟩
    · rw [scanPairs_skip hk] at h
      obtain ⟨h1, h2, h3, h4⟩ := scanPairs_some_facts h
      exact ⟨h1, by simp [mapKeys_cons, h2], by simp [h3], by simp [h4]⟩

theorem scanPairs_even_ok (key : String) :
    ∀ {c : List YamlNode}, c.length % 2 = 0 →
      ∃ o, scanPairs key c = .ok o
  | [], _ => ⟨none, rfl⟩
  | [_], h => by simp at h
  | kn :: vn :: rest, h => by
    by_cases hk : kn.value = key
    · exact ⟨some (kn, vn), scanPairs_found hk⟩
    · rw [scanPairs_skip hk]
      exact scanPairs_even_ok key (by simp only [List.length_cons] at h; omega)

theorem scanPairs_even_none {key : String} :
    ∀ {c : List YamlNode}, c.length % 2 = 0 → key ∉ mapKeys c →
      scanPairs key c = .ok none
  | [], _, _ => rfl
  | [_], h, _ => by simp at h
  | kn :: vn :: rest, h, hm => by
    simp only [mapKeys_cons, List.mem_cons, not_or] at hm
    rw [scanPairs_skip (fun he => hm.1 he.symm)]
    exact scanPairs_even_none (by simp only [List.length_cons] at h; omega) hm.2

theorem scanPairs_append {key : String} :
    ∀ {c0 : List YamlNode} (rest : List YamlNode), c0.length % 2 = 0 → key ∉ mapKeys c0 →
      scanPairs key (c0 ++ rest) = scanPairs key rest
  | [], _, _, _ => rfl
  | [_], _, h, _ => by simp at h
  | kn :: vn :: c0, rest, h, hm => by
    simp only [mapKeys_cons, List.mem_cons, not_or] at hm
    rw [List.cons_append, List.cons_append, scanPairs_skip (fun he => hm.1 he.symm)]
    exact scanPairs_append rest (by simp only [List.length_cons] at h; omega) hm.2

/-! ## Unfolding and structure lemmas for the rule loop -/

theorem applyRules_nil (input : YamlNode) : applyRules [] input = .ok [] := by
  rw [applyRules]

theorem applyRules_cons (key : String) (incl rest : List IncludeConfigItem)
    (input : YamlNode) :
    applyRules (IncludeConfigItem.mk key incl :: rest) input =
      match scanPairs key input.content with
      | .error e => .error e
      | .ok none => applyRules rest input
      | .ok (some (kn, vn)) =>
        if incl.length > 0 then
          match filterByRules incl vn with
          | .error e => .error e
          | .ok nested =>
            match applyRules rest input with
            | .error e => .error e
            | .ok tail => .ok (kn :: nested :: tail)
        else
          match applyRules rest input with
          | .error e => .error e
          | .ok tail => .ok (kn :: vn :: tail) := by
  rw [applyRules]

theorem filterByRules_eq (rules : List IncludeConfigItem) (input : YamlNode) :
    filterByRules rules input =
      if input.kind = Kind.mapping then
        match applyRules rules input with
        | .error e => .error e
        | .ok cs => .ok (YamlNode.mk Kind.mapping input.style "" "" cs 0 0)
      else .error .fatalNotAMapping := by
  rw [filterByRules]

theorem filterByRules_ok_elim {rules : List IncludeConfigItem} {input out : YamlNode}
    (h : filterByRules rules input = .ok out) :
    input.kind = Kind.mapping ∧ ∃ cs, applyRules rules input = .ok cs ∧
      out = YamlNode.mk Kind.mapping input.style "" "" cs 0 0 := by
  rw [filterByRules_eq] at h
  by_cases hk : input.kind = Kind.mapping
  · rw [if_pos hk] at h
    cases ha : applyRules rules input with
    | error e => rw [ha] at h; exact absurd h (by simp)
    | ok cs =>
      rw [ha] at h
      refine ⟨hk, cs, rfl, ?_⟩
      exact (Except.ok.inj h).symm
  · rw [if_neg hk] at h
    exact absurd h (by simp)

theorem filterByRules_ok_intro {rules : List IncludeConfigItem} {input : YamlNode}
    {cs : List YamlNode} (hk : input.kind = Kind.mapping)
    (ha : applyRules rules input = .ok cs) :
    filterByRules rules input = .ok (YamlNode.mk Kind.mapping input.style "" "" cs 0 0) := by
  rw [filterByRules_eq, if_pos hk, ha]

theorem applyRules_cons_err {key : String} {incl rest : List IncludeConfigItem}
    {input : YamlNode} {e : Err} (h : scanPairs key input.content = .error e) :
    applyRules (IncludeConfigItem.mk key incl :: rest) input = .error e := by
  rw [applyRules_cons, h]

theorem applyRules_cons_none {key : String} {incl rest : List IncludeConfigItem}
    {input : YamlNode} (h : scanPairs key input.content = .ok none) :
    applyRules (IncludeConfigItem.mk key incl :: rest) input = applyRules rest input := by
  rw [applyRules_cons, h]

theorem applyRules_cons_leaf {key : String} {rest : List IncludeConfigItem}
    {input kn vn : YamlNode} (h : scanPairs key input.content = .ok (some (kn, vn))) :
    applyRules (IncludeConfigItem.mk key [] :: rest) input =
      match applyRules rest input with
      | .error e => .error e
      | .ok tail => .ok (kn :: vn :: tail) := by
  rw [applyRules_cons, h]
  rfl

theorem applyRules_cons_nested {key : String} {i0 : IncludeConfigItem}
    {irest rest : List IncludeConfigItem} {input kn vn : YamlNode}
    (h : scanPairs key input.content = .ok (some (kn, vn))) :
    applyRules (IncludeConfigItem.mk key (i0 :: irest) :: rest) input =
      match filterByRules (i0 :: irest) vn with
      | .error e => .error e
      | .ok nested =>
        match applyRules rest input with
        | .error e => .error e
        | .ok tail => .ok (kn :: nested :: tail) := by
  rw [applyRules_cons, h]
  simp

theorem applyRules_even {rules : List IncludeConfigItem} :
    ∀ {input : YamlNode} {cs : List YamlNode},
      applyRules rules input = .ok cs → cs.length % 2 = 0 := by
  induction rules with
  | nil =>
    intro input cs h
    rw [applyRules_nil] at h
    have : cs = [] := (Except.ok.inj h).symm
    simp [this]
  | cons r rest ih =>
    obtain ⟨key, incl⟩ := r
    intro input cs h
    cases hscan : scanPairs key input.content with
    | error e => rw [applyRules_cons_err hscan] at h; exact absurd h (by simp)
    | ok o =>
      cases o with
      | none => rw [applyRules_cons_none hscan] at h; exact ih h
      | some p =>
        obtain ⟨kn, vn⟩ := p
        cases incl with
        | nil =>
          rw [applyRules_cons_leaf hscan] at h
          cases ht : applyRules rest input with
          | error e => rw [ht] at h; exact absurd h (by simp)
          | ok tail =>
            rw [ht] at h
            have htail := ih ht
            have hcs : cs = kn :: vn :: tail := (Except.ok.inj h).symm
            subst hcs
            simp only [List.length_cons]
            omega
        | cons i0 irest =>
          rw [applyRules_cons_nested hscan] at h
          cases hf : filterByRules (i0 :: irest) vn with
          | error e => rw [hf] at h; exact absurd h (by simp)
          | ok nested =>
            rw [hf] at h
            cases ht : applyRules rest input with
            | error e => rw [ht] at h; exact absurd h (by simp)
            | ok tail =>
              rw [ht] at h
              have htail := ih ht
              have hcs : cs = kn :: nested :: tail := (Except.ok.inj h).symm
              subst hcs
              simp only [List.length_cons]
              omega

theorem applyRules_keys {rules : List IncludeConfigItem} :
    ∀ {input : YamlNode} {cs : List YamlNode},
      applyRules rules input = .ok cs →
      mapKeys cs =
        (rules.filter fun r => decide (r.key ∈ mapKeys input.content)).map
          IncludeConfigItem.key := by
  induction rules with
  | nil =>
    intro input cs h
    rw [applyRules_nil] at h
    have : cs = [] := (Except.ok.inj h).symm
    simp [this, mapKeys]
  | cons r rest ih =>
    obtain ⟨key, incl⟩ := r
    intro input cs h
    cases hscan : scanPairs key input.content with
    | error e => rw [applyRules_cons_err hscan] at h; exact absurd h (by simp)
    | ok o =>
      cases o with
      | none =>
        rw [applyRules_cons_none hscan] at h
        have hnot := scanPairs_none_not_mem hscan
        rw [List.filter_cons_of_neg (by simpa [IncludeConfigItem.key] using hnot)]
        exact ih h
      | some p =>
        obtain ⟨kn, vn⟩ := p
        obtain ⟨hkv, hmem, -, -⟩ := scanPairs_some_facts hscan
        have hkeep :
            (fun r => decide (r.key ∈ mapKeys input.content))
              (IncludeConfigItem.mk key incl) = true := by
          simpa [IncludeConfigItem.key] using hmem
        cases incl with
        | nil =>
          rw [applyRules_cons_leaf hscan] at h
          cases ht : applyRules rest input with
          | error e => rw [ht] at h; exact absurd h (by simp)
          | ok tail =>
            rw [ht] at h
            have hcs : cs = kn :: vn :: tail := (Except.ok.inj h).symm
            subst hcs
            simp only [List.filter_cons, hkeep, if_true]
            simp only [mapKeys_cons, List.map_cons, IncludeConfigItem.key]
            rw [hkv, ih ht]
            rfl
        | cons i0 irest =>
          rw [applyRules_cons_nested hscan] at h
          cases hf : filterByRules (i0 :: irest) vn with
          | error e => rw [hf] at h; exact absurd h (by simp)
          | ok nested =>
            rw [hf] at h
            cases ht : applyRules rest input with
            | error e => rw [ht] at h; exact absurd h (by simp)
            | ok tail =>
              rw [ht] at h
              have hcs : cs = kn :: nested :: tail := (Except.ok.inj h).symm
              subst hcs
              simp only [List.filter_cons, hkeep, if_true]
              simp only [mapKeys_cons, List.map_cons, IncludeConfigItem.key]
              rw [hkv, ih ht]
              rfl

theorem applyRules_append {l1 : List IncludeConfigItem} :
    ∀ {l2 : List IncludeConfigItem} {input : YamlNode},
      applyRules (l1 ++ l2) input =
        match applyRules l1 input with
        | .error e => .error e
        | .ok a =>
          match applyRules l2 input with
          | .error e => .error e
          | .ok b => .ok (a ++ b) := by
  induction l1 with
  | nil =>
    intro l2 input
    rw [List.nil_append, applyRules_nil]
    cases h2 : applyRules l2 input with
    | error e => simp
    | ok b => simp
  | cons r rest ih =>
    obtain ⟨key, incl⟩ := r
    intro l2 input
    rw [List.cons_append]
    cases hscan : scanPairs key input.content with
    | error e => rw [applyRules_cons_err hscan, applyRules_cons_err hscan]
    | ok o =>
      cases o with
      | none => rw [applyRules_cons_none hscan, applyRules_cons_none hscan]; exact ih
      | some p =>
        obtain ⟨kn, vn⟩ := p
        cases incl with
        | nil =>
          rw [applyRules_cons_leaf hscan, applyRules_cons_leaf hscan, ih]
          cases ht : applyRules rest input with
          | error e => simp
          | ok a =>
            cases h2 : applyRules l2 input with
            | error e => simp
            | ok b => simp
        | cons i0 irest =>
          rw [applyRules_cons_nested hscan, applyRules_cons_nested hscan, ih]
          cases hf : filterByRules (i0 :: irest) vn with
          | error e => simp
          | ok nested =>
            cases ht : applyRules rest input with
            | error e => simp
            | ok a =>
              cases h2 : applyRules l2 input with
              | error e => simp
              | ok b => simp

/-! ## Concrete fixtures for witnesses and counterexamples -/

/-- A scalar node with the given text. -/
def scalarNode (v : String) : YamlNode := YamlNode.mk Kind.scalar 0 "" v [] 0 0

/-- Fixture: the mapping `{x: 1, y: 2}`. -/
def fixXY : YamlNode :=
  YamlNode.mk Kind.mapping 0 "" ""
    [scalarNode "x", scalarNode "1", scalarNode "y", scalarNode "2"] 0 0

/-- Fixture: the mapping `{b: {x: 1, y: 2}, a: 3}` (key order b before a). -/
def fixBA : YamlNode :=
  YamlNode.mk Kind.mapping 0 "" ""
    [scalarNode "b", fixXY, scalarNode "a", scalarNode "3"] 0 0

/-! ## C1: key order of the output mapping -/

/-- C1: for every rule forest and mapping input on which the projection
succeeds, the output mapping's key list equals the rules' declaration
order restricted to the rules whose key occurs among the input mapping's
keys — not the input's key order. -/
theorem filterByRules_key_order {rules : List IncludeConfigItem} {input out : YamlNode}
    (h : filterByRules rules input = .ok out) :
    mapKeys out.content =
      (rules.filter fun r => decide (r.key ∈ mapKeys input.content)).map
        IncludeConfigItem.key := by
  obtain ⟨hk, cs, ha, rfl⟩ := filterByRules_ok_elim h
  simpa [YamlNode.content] using applyRules_keys ha

/-- Witness for C1: rules `[a, c, b]` against input keys `[b, a]` give
output keys `[a, b]` (rule order, restricted to present keys). -/
theorem filterByRules_key_order_witness :
    mapKeys (YamlNode.mk Kind.mapping 0 "" ""
        [scalarNode "a", scalarNode "3", scalarNode "b", fixXY] 0 0).content =
      (([IncludeConfigItem.mk "a" [], IncludeConfigItem.mk "c" [],
         IncludeConfigItem.mk "b" []].filter
          fun r => decide (r.key ∈ mapKeys fixBA.content)).map
        IncludeConfigItem.key) :=
  filterByRules_key_order
    (show filterByRules [IncludeConfigItem.mk "a" [], IncludeConfigItem.mk "c" [],
        IncludeConfigItem.mk "b" []] fixBA =
      .ok (YamlNode.mk Kind.mapping 0 "" ""
        [scalarNode "a", scalarNode "3", scalarNode "b", fixXY] 0 0) by
      simp [filterByRules_eq, applyRules_cons, applyRules_nil, scanPairs,
        fixBA, fixXY, scalarNode, YamlNode.kind, YamlNode.value, YamlNode.content,
        YamlNode.style])

/-! ## C4: leaf rules copy the matched subtree verbatim -/

/-- C4: a matched rule with no nested rules contributes the matched key
node and the matched value node themselves — the identical subtrees, all
descendants included — to the output content (so their re-serialization is
that of the input subtree). -/
theorem applyRules_leaf_verbatim {key : String} {rest : List IncludeConfigItem}
    {input kn vn : YamlNode} {tail : List YamlNode}
    (hscan : scanPairs key input.content = .ok (some (kn, vn)))
    (htail : applyRules rest input = .ok tail) :
    applyRules (IncludeConfigItem.mk key [] :: rest) input = .ok (kn :: vn :: tail) := by
  rw [applyRules_cons_leaf hscan, htail]

/-- Witness for C4: a leaf rule on key `b` copies the whole nested mapping
`{x: 1, y: 2}` verbatim. -/
theorem applyRules_leaf_verbatim_witness :
    applyRules [IncludeConfigItem.mk "b" []] fixBA = .ok [scalarNode "b", fixXY] :=
  applyRules_leaf_verbatim
    (show scanPairs "b" fixBA.content = .ok (some (scalarNode "b", fixXY)) by
      simp [scanPairs, fixBA, fixXY, scalarNode, YamlNode.value, YamlNode.content])
    (applyRules_nil fixBA)

/-! ## C5: document-level checks of `trim` -/

/-- C5: `trim` fails with `emptyDocument` on a contentless parse, fails
with `multiDocument` on more than one top-level document, and otherwise
unwraps the single top-level node and hands it to `filterByRules`. -/
theorem trim_document_checks (root : YamlNode) (rules : List IncludeConfigItem) :
    (root.content = [] → trim root rules = .error Err.emptyDocument) ∧
    (2 ≤ root.content.length → trim root rules = .error Err.multiDocument) ∧
    (∀ n, root.content = [n] → trim root rules = filterByRules rules n) := by
  refine ⟨fun h => by simp [trim, h], fun h => ?_, fun n h => by simp [trim, h]⟩
  match hc : root.content with
  | [] => rw [hc] at h; simp at h
  | [n] => rw [hc] at h; simp at h
  | a :: b :: cs => simp [trim, hc]

/-- Witness for C5: the three branches at concrete document roots. -/
theorem trim_document_checks_witness :
    trim (YamlNode.mk Kind.document 0 "" "" [] 1 1) [] = .error Err.emptyDocument ∧
    trim (YamlNode.mk Kind.document 0 "" "" [fixBA, fixXY] 1 1) [] =
      .error Err.multiDocument ∧
    trim (YamlNode.mk Kind.document 0 "" "" [fixBA] 1 1) [] = filterByRules [] fixBA :=
  ⟨(trim_document_checks _ _).1 rfl,
   (trim_document_checks _ _).2.1 (by simp [YamlNode.content]),
   (trim_document_checks _ _).2.2 fixBA rfl⟩

/-! ## C6: zero matches give a valid empty mapping -/

/-- C6: when no rule's key occurs in the (well-formed) input mapping,
`filterByRules` succeeds with a mapping node of empty content carrying the
input's style hint — not an error. -/
theorem filterByRules_empty_result {rules : List IncludeConfigItem} {input : YamlNode}
    (hk : input.kind = Kind.mapping) (he : input.content.length % 2 = 0)
    (hnone : ∀ r ∈ rules, r.key ∉ mapKeys input.content) :
    filterByRules rules input = .ok (YamlNode.mk Kind.mapping input.style "" "" [] 0 0) := by
  have ha : ∀ rs : List IncludeConfigItem, (∀ r ∈ rs, r.key ∉ mapKeys input.content) →
      applyRules rs input = .ok [] := by
    intro rs
    induction rs with
    | nil => intro _; exact applyRules_nil input
    | cons r rest ih =>
      obtain ⟨key, incl⟩ := r
      intro hn
      have h1 : key ∉ mapKeys input.content := by
        simpa [IncludeConfigItem.key] using hn (IncludeConfigItem.mk key incl) (by simp)
      rw [applyRules_cons_none (scanPairs_even_none he h1)]
      exact ih fun r hr => hn r (by simp [hr])
  exact filterByRules_ok_intro hk (ha rules hnone)

/-- Witness for C6: a rule on an absent key against `{x: 1, y: 2}` yields
the empty mapping with the input's style. -/
theorem filterByRules_empty_result_witness :
    filterByRules [IncludeConfigItem.mk "z" []] fixXY =
      .ok (YamlNode.mk Kind.mapping fixXY.style "" "" [] 0 0) :=
  filterByRules_empty_result (by simp [fixXY, YamlNode.kind])
    (by simp [fixXY, YamlNode.content])
    (by simp [fixXY, scalarNode, mapKeys, IncludeConfigItem.key, YamlNode.value,
      YamlNode.content])

/-! ## C7: an unmatched rule is skipped with no effect -/

/-- C7: a rule whose key is absent from the (well-formed) input mapping
contributes nothing: the projection with that rule present anywhere in the
forest equals the projection without it, and the remaining rules are still
processed. -/
theorem filterByRules_unmatched_skipped {pre post : List IncludeConfigItem}
    {rule : IncludeConfigItem} {input : YamlNode}
    (he : input.content.length % 2 = 0) (habs : rule.key ∉ mapKeys input.content) :
    filterByRules (pre ++ rule :: post) input = filterByRules (pre ++ post) input := by
  have hdrop : applyRules (rule :: post) input = applyRules post input := by
    obtain ⟨key, incl⟩ := rule
    exact applyRules_cons_none
      (scanPairs_even_none he (by simpa [IncludeConfigItem.key] using habs))
  rw [filterByRules_eq, filterByRules_eq, applyRules_append, applyRules_append, hdrop]

/-- Witness for C7: dropping an absent-key rule between two present-key
rules leaves the projection unchanged. -/
theorem filterByRules_unmatched_skipped_witness :
    filterByRules ([IncludeConfigItem.mk "b" []] ++ IncludeConfigItem.mk "z" [] ::
        [IncludeConfigItem.mk "a" []]) fixBA =
      filterByRules ([IncludeConfigItem.mk "b" []] ++ [IncludeConfigItem.mk "a" []]) fixBA :=
  filterByRules_unmatched_skipped (by simp [fixBA, YamlNode.content])
    (by simp [fixBA, fixXY, scalarNode, mapKeys, IncludeConfigItem.key, YamlNode.value,
      YamlNode.content])

/-! ## C9: duplicate rule keys produce duplicate entries -/

/-- C9: two rules with the same key, wherever they stand in the forest,
each select the first matching pair of the input independently, so the
output mapping lists that key (and the same first value) once per rule —
entries are not deduplicated. -/
theorem filterByRules_duplicate_rules {key : String}
    {pre mid post : List IncludeConfigItem} {input kn vn : YamlNode}
    {a m p : List YamlNode}
    (hk : input.kind = Kind.mapping)
    (hscan : scanPairs key input.content = .ok (some (kn, vn)))
    (ha : applyRules pre input = .ok a) (hm : applyRules mid input = .ok m)
    (hp : applyRules post input = .ok p) :
    filterByRules (pre ++ IncludeConfigItem.mk key [] ::
        (mid ++ IncludeConfigItem.mk key [] :: post)) input =
      .ok (YamlNode.mk Kind.mapping input.style "" ""
        (a ++ kn :: vn :: (m ++ kn :: vn :: p)) 0 0) := by
  have h2 : applyRules (IncludeConfigItem.mk key [] :: post) input =
      .ok (kn :: vn :: p) := by
    rw [applyRules_cons_leaf hscan, hp]
  have h3 : applyRules (mid ++ IncludeConfigItem.mk key [] :: post) input =
      .ok (m ++ kn :: vn :: p) := by
    rw [applyRules_append, hm, h2]
  have h4 : applyRules (IncludeConfigItem.mk key [] ::
      (mid ++ IncludeConfigItem.mk key [] :: post)) input =
      .ok (kn :: vn :: (m ++ kn :: vn :: p)) := by
    rw [applyRules_cons_leaf hscan, h3]
  have h5 : applyRules (pre ++ IncludeConfigItem.mk key [] ::
      (mid ++ IncludeConfigItem.mk key [] :: post)) input =
      .ok (a ++ kn :: vn :: (m ++ kn :: vn :: p)) := by
    rw [applyRules_append, ha, h4]
  exact filterByRules_ok_intro hk h5

/-- Witness for C9: a rule on `x`, a rule on `y`, and a second rule on `x`
against `{x: 1, y: 2}` produce the pair `x: 1` twice. -/
theorem filterByRules_duplicate_rules_witness :
    filterByRules ([] ++ IncludeConfigItem.mk "x" [] ::
        ([IncludeConfigItem.mk "y" []] ++ IncludeConfigItem.mk "x" [] :: [])) fixXY =
      .ok (YamlNode.mk Kind.mapping fixXY.style "" ""
        ([] ++ scalarNode "x" :: scalarNode "1" ::
          ([scalarNode "y", scalarNode "2"] ++
            scalarNode "x" :: scalarNode "1" :: [])) 0 0) :=
  filterByRules_duplicate_rules (by simp [fixXY, YamlNode.kind])
    (by simp [scanPairs, fixXY, scalarNode, YamlNode.value, YamlNode.content])
    (applyRules_nil fixXY)
    (by simp [applyRules_cons, applyRules_nil, scanPairs, fixXY, scalarNode,
      YamlNode.value, YamlNode.content])
    (applyRules_nil fixXY)

/-! ## C2: non-mapping inputs abort the whole call -/

/-- Counterexample for C2: the not-a-mapping failure does not identify the
offending node's position — two scalar inputs at different line/column
positions produce the very same error (the source emits the constant
message `"Input node is not a mapping node"` with no positional data). -/
theorem filterByRules_error_position_cex :
    filterByRules [] (YamlNode.mk Kind.scalar 0 "" "x" [] 3 5) =
        filterByRules [] (YamlNode.mk Kind.scalar 0 "" "x" [] 7 9) ∧
    filterByRules [] (YamlNode.mk Kind.scalar 0 "" "x" [] 3 5) =
        .error Err.fatalNotAMapping ∧
    (YamlNode.mk Kind.scalar 0 "" "x" [] 3 5).line ≠
        (YamlNode.mk Kind.scalar 0 "" "x" [] 7 9).line := by
  refine ⟨?_, ?_, by simp [YamlNode.line]⟩ <;>
    simp [filterByRules_eq, YamlNode.kind]

/-- C2 amended: projecting a non-mapping node always aborts with the
(positionless) not-a-mapping fatal error, at the top level and when reached
through a nested rule's matched value; the error propagates through the
whole call chain unchanged and no partial result is produced (the entire
call returns the error, never a mapping). -/
theorem filterByRules_notAMapping_propagates :
    (∀ (rules : List IncludeConfigItem) (input : YamlNode),
      input.kind ≠ Kind.mapping →
      filterByRules rules input = .error Err.fatalNotAMapping) ∧
    (∀ (pre post : List IncludeConfigItem) (key : String) (i0 : IncludeConfigItem)
      (irest : List IncludeConfigItem) (input kn vn : YamlNode) (a : List YamlNode)
      (e : Err), input.kind = Kind.mapping →
      applyRules pre input = .ok a →
      scanPairs key input.content = .ok (some (kn, vn)) →
      filterByRules (i0 :: irest) vn = .error e →
      filterByRules (pre ++ IncludeConfigItem.mk key (i0 :: irest) :: post) input =
        .error e) := by
  constructor
  · intro rules input hk
    rw [filterByRules_eq, if_neg hk]
  · intro pre post key i0 irest input kn vn a e hk hpre hscan hnested
    have h1 : applyRules (IncludeConfigItem.mk key (i0 :: irest) :: post) input =
        .error e := by
      rw [applyRules_cons_nested hscan, hnested]
    have h2 : applyRules (pre ++ IncludeConfigItem.mk key (i0 :: irest) :: post) input =
        .error e := by
      rw [applyRules_append, hpre, h1]
    rw [filterByRules_eq, if_pos hk, h2]

/-- Witness for C2 (amended): both conjuncts at concrete inputs — a scalar
top-level input, and a nested rule on `b` whose matched value inside
`{a: 3, b: "s"}` is a scalar. -/
theorem filterByRules_notAMapping_propagates_witness :
    filterByRules [] (scalarNode "s") = .error Err.fatalNotAMapping ∧
    filterByRules ([] ++ IncludeConfigItem.mk "b" [IncludeConfigItem.mk "x" []] :: [])
        (YamlNode.mk Kind.mapping 0 "" ""
          [scalarNode "a", scalarNode "3", scalarNode "b", scalarNode "s"] 0 0) =
      .error Err.fatalNotAMapping :=
  ⟨filterByRules_notAMapping_propagates.1 [] (scalarNode "s")
      (by simp [scalarNode, YamlNode.kind]),
   filterByRules_notAMapping_propagates.2 [] [] "b" (IncludeConfigItem.mk "x" []) []
      _ (scalarNode "b") (scalarNode "s") [] Err.fatalNotAMapping
      (by simp [YamlNode.kind])
      (applyRules_nil _)
      (by simp [scanPairs, scalarNode, YamlNode.value, YamlNode.content])
      (by simp [filterByRules_eq, scalarNode, YamlNode.kind])⟩

/-! ## C10: totality and in-bounds access on well-formed inputs -/

theorem wfNode_even {n : YamlNode} (h : wfNode n = true) (hk : n.kind = Kind.mapping) :
    n.content.length % 2 = 0 := by
  obtain ⟨k, s, t, v, c, l, col⟩ := n
  rw [wfNode] at h
  simp only [Bool.and_eq_true, Bool.or_eq_true, decide_eq_true_eq] at h
  rcases h.1 with h1 | h1
  · exact absurd hk h1
  · exact h1

theorem wfNode_content {n : YamlNode} (h : wfNode n = true) : wfList n.content = true := by
  obtain ⟨k, s, t, v, c, l, col⟩ := n
  rw [wfNode] at h
  exact (Bool.and_eq_true .. ▸ h).2

theorem wfList_mem : ∀ {c : List YamlNode}, wfList c = true → ∀ {n}, n ∈ c → wfNode n = true
  | [], _, _, hm => absurd hm (List.not_mem_nil _)
  | x :: rest, h, n, hm => by
    rw [wfList] at h
    obtain ⟨h1, h2⟩ := Bool.and_eq_true .. ▸ h
    rcases List.mem_cons.mp hm with rfl | hm2
    · exact h1
    · exact wfList_mem h2 hm2

theorem applyRules_wf_total :
    ∀ (fuel : Nat) (rules : List IncludeConfigItem), sizeOf rules ≤ fuel →
    ∀ input : YamlNode, wfNode input = true → input.kind = Kind.mapping →
    (∃ cs, applyRules rules input = .ok cs) ∨
      applyRules rules input = .error Err.fatalNotAMapping := by
  intro fuel
  induction fuel with
  | zero =>
    intro rules hsz
    exact absurd hsz (by cases rules <;> simp)
  | succ n ihN =>
    intro rules hsz input hwf hk
    match rules with
    | [] => exact .inl ⟨[], applyRules_nil input⟩
    | IncludeConfigItem.mk key incl :: rest =>
      have hsz' : sizeOf rest ≤ n ∧ sizeOf incl ≤ n := by
        simp only [List.cons.sizeOf_spec, IncludeConfigItem.mk.sizeOf_spec] at hsz
        omega
      have heven := wfNode_even hwf hk
      obtain ⟨o, ho⟩ := scanPairs_even_ok key heven
      match o with
      | none =>
        rw [applyRules_cons_none ho]
        exact ihN rest hsz'.1 input hwf hk
      | some (kn, vn) =>
        have hvn : wfNode vn = true :=
          wfList_mem (wfNode_content hwf) (scanPairs_some_facts ho).2.2.2
        match incl with
        | [] =>
          rcases ihN rest hsz'.1 input hwf hk with ⟨tail, ht⟩ | ht
          · exact .inl ⟨kn :: vn :: tail, by rw [applyRules_cons_leaf ho, ht]⟩
          · exact .inr (by rw [applyRules_cons_leaf ho, ht])
        | i0 :: irest =>
          by_cases hvk : vn.kind = Kind.mapping
          · rcases ihN (i0 :: irest) hsz'.2 vn hvn hvk with ⟨cs', hcs'⟩ | hcs'
            · have hf : filterByRules (i0 :: irest) vn =
                  .ok (YamlNode.mk Kind.mapping vn.style "" "" cs' 0 0) :=
                filterByRules_ok_intro hvk hcs'
              rcases ihN rest hsz'.1 input hwf hk with ⟨tail, ht⟩ | ht
              · exact .inl ⟨_, by rw [applyRules_cons_nested ho, hf, ht]⟩
              · exact .inr (by rw [applyRules_cons_nested ho, hf, ht])
            · have hf : filterByRules (i0 :: irest) vn = .error Err.fatalNotAMapping := by
                rw [filterByRules_eq, if_pos hvk, hcs']
              exact .inr (by rw [applyRules_cons_nested ho, hf])
          · have hf : filterByRules (i0 :: irest) vn = .error Err.fatalNotAMapping := by
              rw [filterByRules_eq, if_neg hvk]
            exact .inr (by rw [applyRules_cons_nested ho, hf])

/-- C10: on a well-formed input (every mapping node in the tree has an
even-length content list, as every parsed mapping does), the projection
never performs an out-of-bounds content access: the embedded function never
returns the index-out-of-range outcome. -/
theorem filterByRules_no_out_of_bounds {rules : List IncludeConfigItem}
    {input : YamlNode} (hwf : wfNode input = true) :
    filterByRules rules input ≠ .error Err.indexOutOfRange := by
  by_cases hk : input.kind = Kind.mapping
  · rcases applyRules_wf_total (sizeOf rules) rules le_rfl input hwf hk with ⟨cs, hcs⟩ | hcs
    · rw [filterByRules_ok_intro hk hcs]
      simp
    · rw [filterByRules_eq, if_pos hk, hcs]
      simp
  · rw [filterByRules_eq, if_neg hk]
    simp

/-- Witness for C10 at a concrete well-formed input. -/
theorem filterByRules_no_out_of_bounds_witness :
    filterByRules [IncludeConfigItem.mk "b" [IncludeConfigItem.mk "y" []]] fixBA ≠
      .error Err.indexOutOfRange :=
  filterByRules_no_out_of_bounds
    (by simp [wfNode, wfList, fixBA, fixXY, scalarNode, YamlNode.kind, YamlNode.content])

/-! ## C3: idempotence of `trim` -/

theorem mapKeys_append :
    ∀ {c0 : List YamlNode}, c0.length % 2 = 0 → ∀ c : List YamlNode,
      mapKeys (c0 ++ c) = mapKeys c0 ++ mapKeys c
  | [], _, c => rfl
  | [_], h, _ => by simp at h
  | a :: b :: rest, h, c => by
    rw [List.cons_append, List.cons_append, mapKeys_cons, mapKeys_cons,
      mapKeys_append (by simp only [List.length_cons] at h; omega) c, List.cons_append]

theorem distinctKeys_cons {key : String} {incl rest : List IncludeConfigItem}
    (h : distinctKeys (IncludeConfigItem.mk key incl :: rest) = true) :
    (∀ r ∈ rest, r.key ≠ key) ∧ distinctKeys incl = true ∧ distinctKeys rest = true := by
  rw [distinctKeys] at h
  simp only [Bool.and_eq_true, decide_eq_true_eq] at h
  refine ⟨fun r hr he => h.1.1 (List.mem_map.mpr ⟨r, hr, he⟩), h.1.2, h.2⟩

theorem applyRules_idem_aux :
    ∀ (fuel : Nat) (rules : List IncludeConfigItem), sizeOf rules ≤ fuel →
      distinctKeys rules = true →
      ∀ (input out : YamlNode) (cs0 cs : List YamlNode),
        applyRules rules input = .ok cs →
        out.content = cs0 ++ cs →
        cs0.length % 2 = 0 →
        (∀ r ∈ rules, r.key ∉ mapKeys cs0) →
        applyRules rules out = .ok cs := by
  intro fuel
  induction fuel with
  | zero => intro rules hsz; exact absurd hsz (by cases rules <;> simp)
  | succ n ihN =>
    intro rules hsz hd input out cs0 cs h hout he0 hnot
    match rules with
    | [] =>
      rw [applyRules_nil] at h
      rw [applyRules_nil]
      exact h
    | IncludeConfigItem.mk key incl :: rest =>
      obtain ⟨hdr, hdi, hdrest⟩ := distinctKeys_cons hd
      have hsz' : sizeOf rest ≤ n ∧ sizeOf incl ≤ n := by
        simp only [List.cons.sizeOf_spec, IncludeConfigItem.mk.sizeOf_spec] at hsz
        omega
      have hkey0 : key ∉ mapKeys cs0 := by
        simpa [IncludeConfigItem.key] using hnot (IncludeConfigItem.mk key incl) (by simp)
      cases hscan : scanPairs key input.content with
      | error e => rw [applyRules_cons_err hscan] at h; exact absurd h (by simp)
      | ok o =>
        cases o with
        | none =>
          rw [applyRules_cons_none hscan] at h
          have hkcs : key ∉ mapKeys cs := by
            rw [applyRules_keys h]
            intro hmem
            obtain ⟨r, hr, hrk⟩ := List.mem_map.mp hmem
            exact hdr r (List.mem_of_mem_filter hr) hrk
          have hscan' : scanPairs key out.content = .ok none := by
            rw [hout, scanPairs_append cs he0 hkey0]
            exact scanPairs_even_none (applyRules_even h) hkcs
          rw [applyRules_cons_none hscan']
          exact ihN rest hsz'.1 hdrest input out cs0 cs h hout he0
            fun r hr => hnot r (by simp [hr])
        | some p =>
          obtain ⟨kn, vn⟩ := p
          have hknv := (scanPairs_some_facts hscan).1
          cases incl with
          | nil =>
            rw [applyRules_cons_leaf hscan] at h
            cases ht : applyRules rest input with
            | error e => rw [ht] at h; exact absurd h (by simp)
            | ok tail =>
              rw [ht] at h
              have hcs : cs = kn :: vn :: tail := (Except.ok.inj h).symm
              subst hcs
              have hscan' : scanPairs key out.content = .ok (some (kn, vn)) := by
                rw [hout, scanPairs_append _ he0 hkey0]
                exact scanPairs_found hknv
              have htail' : applyRules rest out = .ok tail := by
                apply ihN rest hsz'.1 hdrest input out (cs0 ++ [kn, vn]) tail ht
                · rw [hout]; simp
                · simp only [List.length_append, List.length_cons, List.length_nil]
                  omega
                · intro r hr
                  rw [mapKeys_append he0]
                  intro hmem
                  rcases List.mem_append.mp hmem with hm | hm
                  · exact hnot r (by simp [hr]) hm
                  · have : r.key = key := by
                      simpa [mapKeys, hknv] using hm
                    exact hdr r hr this
              rw [applyRules_cons_leaf hscan', htail']
          | cons i0 irest =>
            rw [applyRules_cons_nested hscan] at h
            cases hf : filterByRules (i0 :: irest) vn with
            | error e => rw [hf] at h; exact absurd h (by simp)
            | ok w =>
              rw [hf] at h
              cases ht : applyRules rest input with
              | error e => rw [ht] at h; exact absurd h (by simp)
              | ok tail =>
                rw [ht] at h
                have hcs : cs = kn :: w :: tail := (Except.ok.inj h).symm
                subst hcs
                obtain ⟨hvk, cs', ha', hw⟩ := filterByRules_ok_elim hf
                subst hw
                have ha'' : applyRules (i0 :: irest)
                    (YamlNode.mk Kind.mapping vn.style "" "" cs' 0 0) = .ok cs' :=
                  ihN (i0 :: irest) hsz'.2 hdi vn _ [] cs' ha'
                    (by simp [YamlNode.content]) (by simp) (by simp [mapKeys])
                have hf' : filterByRules (i0 :: irest)
                    (YamlNode.mk Kind.mapping vn.style "" "" cs' 0 0) =
                    .ok (YamlNode.mk Kind.mapping vn.style "" "" cs' 0 0) := by
                  simpa [YamlNode.style] using filterByRules_ok_intro (by rfl) ha''
                have hscan' : scanPairs key out.content =
                    .ok (some (kn, YamlNode.mk Kind.mapping vn.style "" "" cs' 0 0)) := by
                  rw [hout, scanPairs_append _ he0 hkey0]
                  exact scanPairs_found hknv
                have htail' : applyRules rest out = .ok tail := by
                  apply ihN rest hsz'.1 hdrest input out
                    (cs0 ++ [kn, YamlNode.mk Kind.mapping vn.style "" "" cs' 0 0]) tail ht
                  · rw [hout]; simp
                  · simp only [List.length_append, List.length_cons, List.length_nil]
                    omega
                  · intro r hr
                    rw [mapKeys_append he0]
                    intro hmem
                    rcases List.mem_append.mp hmem with hm | hm
                    · exact hnot r (by simp [hr]) hm
                    · have : r.key = key := by
                        simpa [mapKeys, hknv] using hm
                      exact hdr r hr this
                rw [applyRules_cons_nested hscan', hf', htail']

theorem filterByRules_idem {rules : List IncludeConfigItem} {input out : YamlNode}
    (hd : distinctKeys rules = true) (h : filterByRules rules input = .ok out) :
    filterByRules rules out = .ok out := by
  obtain ⟨hk, cs, ha, rfl⟩ := filterByRules_ok_elim h
  have ha' : applyRules rules (YamlNode.mk Kind.mapping input.style "" "" cs 0 0) = .ok cs :=
    applyRules_idem_aux (sizeOf rules) rules le_rfl hd input _ [] cs ha
      (by simp [YamlNode.content]) (by simp) (by simp [mapKeys])
  simpa [YamlNode.style] using filterByRules_ok_intro (by rfl) ha'

/-- Fixture: the rule forest `[{key: a, include: [{key: x}]}, {key: a}]`,
two rules with the same key. -/
def cexRules : List IncludeConfigItem :=
  [IncludeConfigItem.mk "a" [IncludeConfigItem.mk "x" []], IncludeConfigItem.mk "a" []]

/-- Fixture: the mapping `{x: 1}` (the projection of `{x: 1, y: 2}` through
`[{key: x}]`). -/
def cexW : YamlNode :=
  YamlNode.mk Kind.mapping 0 "" "" [scalarNode "x", scalarNode "1"] 0 0

/-- Fixture: the mapping `{a: {x: 1, y: 2}}`. -/
def cexInput : YamlNode :=
  YamlNode.mk Kind.mapping 0 "" "" [scalarNode "a", fixXY] 0 0

/-- Fixture: first projection of `cexInput` through `cexRules`:
`{a: {x: 1}, a: {x: 1, y: 2}}`. -/
def cexOut1 : YamlNode :=
  YamlNode.mk Kind.mapping 0 "" "" [scalarNode "a", cexW, scalarNode "a", fixXY] 0 0

/-- A parsed document root wrapping one top-level node. -/
def mkDocNode (n : YamlNode) : YamlNode :=
  YamlNode.mk Kind.document 0 "" "" [n] 1 1

/-- Counterexample for C3: with the duplicate-key rule forest
`[{key: a, include: [{key: x}]}, {key: a}]` on document `{a: {x: 1, y: 2}}`,
the first `trim` succeeds with `{a: {x: 1}, a: {x: 1, y: 2}}`, but trimming
that output again through the same rules yields `{a: {x: 1}, a: {x: 1}}` —
a different document (the second rule now re-copies the already-projected
first `a` entry), so `trim(trim(doc, R), R) ≠ trim(doc, R)`. -/
theorem trim_not_idempotent_cex :
    trim (mkDocNode cexInput) cexRules = .ok cexOut1 ∧
    trim (mkDocNode cexOut1) cexRules ≠ .ok cexOut1 := by
  have h1 : trim (mkDocNode cexInput) cexRules = .ok cexOut1 := by
    simp [trim, mkDocNode, cexInput, cexRules, cexOut1, cexW, fixXY, scalarNode,
      filterByRules_eq, applyRules_cons, applyRules_nil, scanPairs,
      YamlNode.kind, YamlNode.value, YamlNode.content, YamlNode.style]
  have h2 : trim (mkDocNode cexOut1) cexRules =
      .ok (YamlNode.mk Kind.mapping 0 "" ""
        [scalarNode "a", cexW, scalarNode "a", cexW] 0 0) := by
    simp [trim, mkDocNode, cexRules, cexOut1, cexW, fixXY, scalarNode,
      filterByRules_eq, applyRules_cons, applyRules_nil, scanPairs,
      YamlNode.kind, YamlNode.value, YamlNode.content, YamlNode.style]
  refine ⟨h1, ?_⟩
  rw [h2]
  decide

/-- C3 amended: for rule forests whose sibling keys are pairwise distinct
at every level, `trim` is idempotent: if `trim root rules` succeeds with
`out`, then running `trim` on a document root wrapping `out` (the parse of
the serialized output) returns `out` again unchanged. -/
theorem trim_idempotent_distinct {root wrapper : YamlNode}
    {rules : List IncludeConfigItem} {out : YamlNode}
    (hd : distinctKeys rules = true) (h : trim root rules = .ok out)
    (hw : wrapper.content = [out]) :
    trim wrapper rules = .ok out := by
  have hex : ∃ n, root.content = [n] ∧ filterByRules rules n = .ok out := by
    unfold trim at h
    match hc : root.content with
    | [] => rw [hc] at h; exact absurd h (by simp)
    | [n] => rw [hc] at h; exact ⟨n, rfl, h⟩
    | a :: b :: cs => rw [hc] at h; exact absurd h (by simp)
  obtain ⟨n, hroot, hfn⟩ := hex
  have hidem := filterByRules_idem hd hfn
  unfold trim
  rw [hw]
  exact hidem

/-- Fixture: `{a: {x: 1}}`, the projection of `{a: {x: 1, y: 2}}` through
the single nested rule on `a`/`x`. -/
def w3Out : YamlNode :=
  YamlNode.mk Kind.mapping 0 "" "" [scalarNode "a", cexW] 0 0

/-- Witness for C3 (amended) at the distinct-key rule forest
`[{key: a, include: [{key: x}]}]`. -/
theorem trim_idempotent_distinct_witness :
    trim (mkDocNode w3Out) [IncludeConfigItem.mk "a" [IncludeConfigItem.mk "x" []]] =
      .ok w3Out :=
  trim_idempotent_distinct
    (by simp [distinctKeys, IncludeConfigItem.key])
    (show trim (mkDocNode cexInput)
        [IncludeConfigItem.mk "a" [IncludeConfigItem.mk "x" []]] = .ok w3Out by
      simp [trim, mkDocNode, cexInput, w3Out, cexW, fixXY, scalarNode,
        filterByRules_eq, applyRules_cons, applyRules_nil, scanPairs,
        YamlNode.kind, YamlNode.value, YamlNode.content, YamlNode.style])
    (by simp [mkDocNode, YamlNode.content])

/-! ## C8: the input tree is never mutated (store model) -/

/-- `Agrees s t outId`: the store `t` extends `s` and agrees with it at
every pre-existing id other than `outId`. -/
def Agrees (s t : Store) (outId : Nat) : Prop :=
  s.length ≤ t.length ∧ ∀ j, j < s.length → j ≠ outId → t[j]? = s[j]?

theorem agrees_refl (s : Store) (outId : Nat) : Agrees s s outId :=
  ⟨le_rfl, fun _ _ _ => rfl⟩

theorem agrees_trans {s t u : Store} {outId : Nat} (hst : Agrees s t outId)
    (htu : Agrees t u outId) : Agrees s u outId :=
  ⟨le_trans hst.1 htu.1, fun j hj hne => by
    rw [htu.2 j (lt_of_lt_of_le hj hst.1) hne, hst.2 j hj hne]⟩

theorem agrees_set_out {s t : Store} {outId : Nat} (d : NodeData)
    (h : Agrees s t outId) : Agrees s (t.set outId d) outId :=
  ⟨by rw [List.length_set]; exact h.1, fun j hj hne => by
    rw [List.getElem?_set_ne fun he => hne he.symm]
    exact h.2 j hj hne⟩

theorem agrees_append {s t : Store} {outId : Nat} (l : Store)
    (h : Agrees s t outId) : Agrees s (t ++ l) outId :=
  ⟨by have h1 := h.1; rw [List.length_append]; omega, fun j hj hne => by
    rw [List.getElem?_append_left (lt_of_lt_of_le hj h.1)]
    exact h.2 j hj hne⟩

theorem agrees_set_fresh {s t : Store} {outId i : Nat} (d : NodeData)
    (hi : s.length ≤ i) (h : Agrees s t outId) : Agrees s (t.set i d) outId :=
  ⟨by rw [List.length_set]; exact h.1, fun j hj hne => by
    rw [List.getElem?_set_ne (by omega : i ≠ j)]
    exact h.2 j hj hne⟩

theorem agrees_nested {s t u : Store} {outId nid : Nat}
    (hnid : s.length ≤ nid) (hst : Agrees s t outId) (htu : Agrees t u nid) :
    Agrees s u outId :=
  ⟨le_trans hst.1 htu.1, fun j hj hne => by
    rw [htu.2 j (lt_of_lt_of_le hj hst.1) (by omega), hst.2 j hj hne]⟩

theorem getN_eq_of_getElem? {s t : Store} {j : Nat} (h : t[j]? = s[j]?) :
    getN t j = getN s j := by
  unfold getN
  rw [List.getD_eq_getElem?_getD, List.getD_eq_getElem?_getD, h]

theorem getN_set_self {s : Store} {i : Nat} {d : NodeData} (h : i < s.length) :
    getN (s.set i d) i = d := by
  unfold getN
  rw [List.getD_eq_getElem?_getD, List.getElem?_set_self h]
  rfl

theorem getN_set_ne {s : Store} {i j : Nat} {d : NodeData} (h : i ≠ j) :
    getN (s.set i d) j = getN s j :=
  getN_eq_of_getElem? (List.getElem?_set_ne h)

theorem getN_append_left {s l : Store} {j : Nat} (h : j < s.length) :
    getN (s ++ l) j = getN s j :=
  getN_eq_of_getElem? (List.getElem?_append_left h)

theorem getN_agrees {s t : Store} {outId j : Nat} (h : Agrees s t outId)
    (hj : j < s.length) (hne : j ≠ outId) : getN t j = getN s j :=
  getN_eq_of_getElem? (h.2 j hj hne)

theorem rulesS_nil (inId outId : Nat) (s : Store) : rulesS [] inId outId s = .ok s := by
  rw [rulesS]

theorem rulesS_cons_err {key : String} {incl rest : List IncludeConfigItem}
    {inId outId : Nat} {s : Store} {e : Err}
    (h : findIds key s (getN s inId).content = .error e) :
    rulesS (IncludeConfigItem.mk key incl :: rest) inId outId s = .error e := by
  rw [rulesS, h]

theorem rulesS_cons_none {key : String} {incl rest : List IncludeConfigItem}
    {inId outId : Nat} {s : Store}
    (h : findIds key s (getN s inId).content = .ok none) :
    rulesS (IncludeConfigItem.mk key incl :: rest) inId outId s =
      rulesS rest inId outId s := by
  rw [rulesS, h]

theorem rulesS_cons_leaf {key : String} {rest : List IncludeConfigItem}
    {inId outId : Nat} {s : Store} {kId vId : Nat}
    (h : findIds key s (getN s inId).content = .ok (some (kId, vId))) :
    rulesS (IncludeConfigItem.mk key [] :: rest) inId outId s =
      rulesS rest inId outId
        ((s.set outId (appendContent (getN s outId) kId)).set outId
          (appendContent (getN (s.set outId (appendContent (getN s outId) kId)) outId)
            vId)) := by
  rw [rulesS, h]
  rfl

theorem rulesS_cons_nested {key : String} {i0 : IncludeConfigItem}
    {irest rest : List IncludeConfigItem} {inId outId : Nat} {s : Store} {kId vId : Nat}
    (h : findIds key s (getN s inId).content = .ok (some (kId, vId))) :
    rulesS (IncludeConfigItem.mk key (i0 :: irest) :: rest) inId outId s =
      match filterByRulesS (i0 :: irest) vId
          (s.set outId (appendContent (getN s outId) kId)).length
          (s.set outId (appendContent (getN s outId) kId) ++ [zeroNodeData]) with
      | .error e => .error e
      | .ok s3 =>
        rulesS rest inId outId
          (s3.set outId (appendContent (getN s3 outId)
            (s.set outId (appendContent (getN s outId) kId)).length)) := by
  rw [rulesS, h]
  simp

theorem filterByRulesS_eq (rules : List IncludeConfigItem) (inId outId : Nat) (s : Store) :
    filterByRulesS rules inId outId s =
      if (getN s inId).kind = Kind.mapping then
        rulesS rules inId outId
          (s.set outId
            { getN s outId with kind := Kind.mapping, style := (getN s inId).style })
      else .error .fatalNotAMapping := by
  rw [filterByRulesS]

theorem rulesS_frame_aux :
    ∀ (fuel : Nat) (rules : List IncludeConfigItem), sizeOf rules ≤ fuel →
    ∀ (inId outId : Nat) (s s' : Store), outId < s.length →
      rulesS rules inId outId s = .ok s' →
      Agrees s s' outId ∧ (getN s' outId).kind = (getN s outId).kind ∧
        (getN s' outId).style = (getN s outId).style := by
  intro fuel
  induction fuel with
  | zero => intro rules hsz; exact absurd hsz (by cases rules <;> simp)
  | succ n ihN =>
    intro rules hsz inId outId s s' hout h
    match rules with
    | [] =>
      rw [rulesS_nil] at h
      obtain rfl : s = s' := Except.ok.inj h
      exact ⟨agrees_refl s outId, rfl, rfl⟩
    | IncludeConfigItem.mk key incl :: rest =>
      have hsz' : sizeOf rest ≤ n ∧ sizeOf incl ≤ n := by
        simp only [List.cons.sizeOf_spec, IncludeConfigItem.mk.sizeOf_spec] at hsz
        omega
      cases hfind : findIds key s (getN s inId).content with
      | error e => rw [rulesS_cons_err hfind] at h; exact absurd h (by simp)
      | ok o =>
        cases o with
        | none =>
          rw [rulesS_cons_none hfind] at h
          exact ihN rest hsz'.1 inId outId s s' hout h
        | some p =>
          obtain ⟨kId, vId⟩ := p
          have hgs1 : getN (s.set outId (appendContent (getN s outId) kId)) outId =
              appendContent (getN s outId) kId := getN_set_self hout
          cases incl with
          | nil =>
            rw [rulesS_cons_leaf hfind] at h
            have houtB : outId <
                ((s.set outId (appendContent (getN s outId) kId)).set outId
                  (appendContent
                    (getN (s.set outId (appendContent (getN s outId) kId)) outId)
                    vId)).length := by
              rw [List.length_set, List.length_set]; exact hout
            obtain ⟨hag, hkind, hstyle⟩ := ihN rest hsz'.1 inId outId _ s' houtB h
            have hgsB : getN
                ((s.set outId (appendContent (getN s outId) kId)).set outId
                  (appendContent
                    (getN (s.set outId (appendContent (getN s outId) kId)) outId)
                    vId)) outId =
                appendContent
                  (getN (s.set outId (appendContent (getN s outId) kId)) outId) vId :=
              getN_set_self (by rw [List.length_set]; exact hout)
            refine ⟨agrees_trans
              (agrees_set_out _ (agrees_set_out _ (agrees_refl s outId))) hag, ?_, ?_⟩
            · rw [hkind, hgsB, hgs1]; rfl
            · rw [hstyle, hgsB, hgs1]; rfl
          | cons i0 irest =>
            rw [rulesS_cons_nested hfind] at h
            rw [List.length_set] at h
            cases hf : filterByRulesS (i0 :: irest) vId s.length
                (s.set outId (appendContent (getN s outId) kId) ++ [zeroNodeData]) with
            | error e => rw [hf] at h; exact absurd h (by simp)
            | ok s3 =>
              rw [hf] at h
              rw [filterByRulesS_eq] at hf
              by_cases hvk :
                  (getN (s.set outId (appendContent (getN s outId) kId) ++ [zeroNodeData])
                    vId).kind = Kind.mapping
              · rw [if_pos hvk] at hf
                have hlen2 :
                    ((s.set outId (appendContent (getN s outId) kId) ++
                      [zeroNodeData]).set s.length
                        { getN (s.set outId (appendContent (getN s outId) kId) ++
                            [zeroNodeData]) s.length with
                          kind := Kind.mapping,
                          style := (getN (s.set outId (appendContent (getN s outId) kId) ++
                            [zeroNodeData]) vId).style }).length = s.length + 1 := by
                  rw [List.length_set, List.length_append, List.length_set]
                  rfl
                obtain ⟨hagN, -, -⟩ := ihN (i0 :: irest) hsz'.2 vId s.length _ s3
                  (by rw [hlen2]; omega) hf
                have hA3 : Agrees s
                    ((s.set outId (appendContent (getN s outId) kId) ++
                      [zeroNodeData]).set s.length
                        { getN (s.set outId (appendContent (getN s outId) kId) ++
                            [zeroNodeData]) s.length with
                          kind := Kind.mapping,
                          style := (getN (s.set outId (appendContent (getN s outId) kId) ++
                            [zeroNodeData]) vId).style }) outId :=
                  agrees_set_fresh _ le_rfl
                    (agrees_append _ (agrees_set_out _ (agrees_refl s outId)))
                have hA4 : Agrees s s3 outId :=
                  agrees_nested le_rfl hA3 hagN
                have houtC : outId <
                    (s3.set outId (appendContent (getN s3 outId) s.length)).length := by
                  rw [List.length_set]
                  have := hA4.1
                  omega
                obtain ⟨hag, hkind, hstyle⟩ := ihN rest hsz'.1 inId outId _ s' houtC h
                have hgs3 : getN s3 outId =
                    appendContent (getN s outId) kId := by
                  rw [getN_agrees hagN (by rw [hlen2]; omega) (by omega),
                    getN_set_ne (by omega),
                    getN_append_left (by rw [List.length_set]; exact hout), hgs1]
                have hgs4 : getN (s3.set outId (appendContent (getN s3 outId) s.length))
                    outId = appendContent (getN s3 outId) s.length :=
                  getN_set_self (by have := hA4.1; omega)
                refine ⟨agrees_trans (agrees_set_out _ hA4) hag, ?_, ?_⟩
                · rw [hkind, hgs4, hgs3]; rfl
                · rw [hstyle, hgs4, hgs3]; rfl
              · rw [if_neg hvk] at hf
                exact absurd hf (by simp)

/-- C8: the store-level projection never mutates any pre-existing node
other than the caller's output node: after a successful
`filterByRulesS rules inId outId s = .ok s'`, every id of `s` other than
`outId` (in particular every node of the input tree, which is disjoint
from the fresh output node) holds exactly the data it held before, new
nodes are only allocated past the end of `s`, and the output node is a
freshly written mapping node carrying the input node's style (its content
sharing the input's subtree ids). -/
theorem filterByRulesS_no_input_mutation {rules : List IncludeConfigItem}
    {inId outId : Nat} {s s' : Store} (hout : outId < s.length)
    (h : filterByRulesS rules inId outId s = .ok s') :
    (∀ j, j < s.length → j ≠ outId → s'[j]? = s[j]?) ∧
    s.length ≤ s'.length ∧
    (getN s' outId).kind = Kind.mapping ∧
    (getN s' outId).style = (getN s inId).style := by
  rw [filterByRulesS_eq] at h
  by_cases hk : (getN s inId).kind = Kind.mapping
  · rw [if_pos hk] at h
    obtain ⟨hag, hkind, hstyle⟩ :=
      rulesS_frame_aux (sizeOf rules) rules le_rfl inId outId _ s'
        (by rw [List.length_set]; exact hout) h
    have hA : Agrees s s' outId :=
      agrees_trans (agrees_set_out _ (agrees_refl s outId)) hag
    refine ⟨hA.2, hA.1, ?_, ?_⟩
    · rw [hkind, getN_set_self hout]
    · rw [hstyle, getN_set_self hout]
  · rw [if_neg hk] at h
    exact absurd h (by simp)

/-- Witness store: ids 0,1 the pair `a: 3`, id 2 the input mapping
`{a: 3}`, id 3 the caller's fresh zero output node. -/
def wStore : Store :=
  [⟨Kind.scalar, 0, "", "a", [], 2, 1⟩,
   ⟨Kind.scalar, 0, "", "3", [], 2, 4⟩,
   ⟨Kind.mapping, 0, "", "", [0, 1], 1, 1⟩,
   zeroNodeData]

/-- Witness store after the output node's kind and style are written. -/
def wStoreMid : Store :=
  [⟨Kind.scalar, 0, "", "a", [], 2, 1⟩,
   ⟨Kind.scalar, 0, "", "3", [], 2, 4⟩,
   ⟨Kind.mapping, 0, "", "", [0, 1], 1, 1⟩,
   ⟨Kind.mapping, 0, "", "", [], 0, 0⟩]

/-- Witness store after the run: the output node shares the input's
key/value ids, and ids 0..2 are untouched. -/
def wStoreOut : Store :=
  [⟨Kind.scalar, 0, "", "a", [], 2, 1⟩,
   ⟨Kind.scalar, 0, "", "3", [], 2, 4⟩,
   ⟨Kind.mapping, 0, "", "", [0, 1], 1, 1⟩,
   ⟨Kind.mapping, 0, "", "", [0, 1], 0, 0⟩]

/-- Witness for C8: running the store-level projection of rule `a` with
input id 2 and output id 3 leaves the input mapping node (id 2) bit-for-bit
unchanged, and the output node is a mapping. -/
theorem filterByRulesS_no_input_mutation_witness :
    wStoreOut[2]? = wStore[2]? ∧ (getN wStoreOut 3).kind = Kind.mapping :=
  have e0 : filterByRulesS [IncludeConfigItem.mk "a" []] 2 3 wStore =
      rulesS [IncludeConfigItem.mk "a" []] 2 3 wStoreMid := by
    rw [filterByRulesS_eq,
      if_pos (by decide : (getN wStore 2).kind = Kind.mapping)]
    exact congrArg (rulesS [IncludeConfigItem.mk "a" []] 2 3) (by decide)
  have e1 : rulesS [IncludeConfigItem.mk "a" []] 2 3 wStoreMid =
      rulesS [] 2 3 wStoreOut := by
    rw [rulesS_cons_leaf
      (by decide : findIds "a" wStoreMid (getN wStoreMid 2).content = .ok (some (0, 1)))]
    exact congrArg (rulesS [] 2 3) (by decide)
  have hf : filterByRulesS [IncludeConfigItem.mk "a" []] 2 3 wStore = .ok wStoreOut :=
    e0.trans (e1.trans (rulesS_nil 2 3 wStoreOut))
  ⟨(filterByRulesS_no_input_mutation (by decide) hf).1 2 (by decide) (by decide),
   (filterByRulesS_no_input_mutation (by decide) hf).2.2.1⟩
